import Mathlib

/-!
Verification development for the `drive` push engine (`src/push.go`, Go package
`drive`).  The Go code is shallowly embedded: every function of `push.go` becomes a
pure Lean function that threads an explicit trace of external-effect events, and every
external collaborator (the remote API client, the local metadata index store, the
interactive prompts, the tree-diff resolver) becomes an oracle field of an `Env`
record whose answers may depend on the full call history so far.  Components of the
repository that are referenced by `push.go` but whose source is not part of this
excerpt (`sift`, `resolveConflicts`, `reduceToSize`, `commonPrefix`, the prefix trie,
quota classification) are modelled from the specification and marked as such in their
doc comments.
-/

namespace Drive

/-- Errors returned by collaborators.  `pathNotExists` models the sentinel
`ErrPathNotExists`; `outOfFuel` is the artificial result of exhausting the recursion
budget of the fueled embedding of `mkdirAll` (never reached for adequate fuel);
`nilDeref` models a crash caused by dereferencing a `nil` pointer. -/
inductive GErr
  | pathNotExists
  | outOfFuel
  | nilDeref
  | other (s : String)
deriving DecidableEq, Repr

/-- Remote/local file metadata (the fields of `File` used by `push.go`). -/
structure File where
  Id : String
  Name : String
  IsDir : Bool
  Size : Int
  ModTime : Int
  Checksum : String
deriving DecidableEq, Repr

/-- Operation kinds of a `Change` (`OpAdd`, `OpMod`, `OpModConflict`, `OpDelete`;
`OpNone` covers every other value of `Change.Op()`, which `playPushChangeList`
silently drops). -/
inductive Op
  | OpAdd
  | OpMod
  | OpModConflict
  | OpDelete
  | OpNone
deriving DecidableEq, Repr

/-- One unit of divergence.  In the Go code the operation kind is computed by the
method `Change.Op()` (not part of this excerpt); here it is stored as a field, per the
spec invariant that exactly one operation kind is assigned per change. -/
structure Change where
  Path : String
  Src : Option File
  Dest : Option File
  op : Op
deriving DecidableEq, Repr

/-- The argument record of `UpsertByComparison` (`upsertOpt` in the Go code). -/
structure UpsertOpt where
  parentId : String
  fsAbsPath : String
  src : Option File
  dest : Option File
  mask : Int
  ignoreChecksum : Bool
deriving DecidableEq, Repr

/-- Locally cached snapshot of remote metadata (`config.Index`), modelled with the
fields the spec says are compared (checksum / size / modification time identity). -/
structure Index where
  FileId : String
  Checksum : String
  Size : Int
  ModTime : Int
deriving DecidableEq, Repr

/-- `File.ToIndex`: the metadata snapshot serialized after a successful mutation. -/
def File.toIndex (f : File) : Index :=
  { FileId := f.Id, Checksum := f.Checksum, Size := f.Size, ModTime := f.ModTime }

/-- Quota classification (`QuotaStatus`). -/
inductive QuotaStatus
  | Ok
  | AlmostExceeded
  | Exceeded
deriving DecidableEq, Repr

/-- One element of a mount specification (`config.MountPoint`). -/
structure MountPoint where
  Name : String
  MountPath : String
deriving DecidableEq, Repr

/-- A mount attachment (`config.Mount`), reduced to its list of points. -/
structure Mount where
  Points : List MountPoint
deriving DecidableEq, Repr

/-- The option fields of `Commands.opts` read by `push.go`. -/
structure Options where
  Sources : List String
  MountOpt : Option Mount
  NoPrompt : Bool
  NoClobber : Bool
  TypeMask : Int
  IgnoreChecksum : Bool

/-- Externally observable events of one push run, in program order.  Remote calls,
local index bookkeeping, terminal output and completion-tracker operations are all
recorded so that ordering and absence claims can be stated about the trace. -/
inductive Event
  | findByPath (p : String)
  | upsertByComparison (o : UpsertOpt)
  | trash (id : String)
  | untrash (id : String)
  | serializeIndex (ix : Index)
  | removeFile (p : String)
  | logUpsertErr (path : String) (e : GErr)
  | logIndexErr (name : String) (e : GErr)
  | logRmIndexErr (path : String) (id : String) (e : GErr)
  | printResolving
  | printAlmostExceeded
  | printExceeded
  | printProjectedSize (n : Int)
  | quotaQuery (n : Int)
  | taskStart (n : Nat)
  | taskDone
  | taskFinish
  | clearMountPoints
deriving DecidableEq, Repr

/-- An event mutates remote state iff it is an upsert, a trash or an untrash;
lookups, quota queries, local index bookkeeping and terminal output do not. -/
def Event.isRemoteMutation : Event → Bool
  | .upsertByComparison _ => true
  | .trash _ => true
  | .untrash _ => true
  | _ => false

/-- Oracles for every external collaborator consumed by `push.go`.  Each oracle sees
the list of events issued so far, so a collaborator's answer may depend on earlier
mutations (this is how statefulness of the remote service is captured). -/
structure Env where
  findByPath : List Event → String → Option File × Option GErr
  upsertByComparison : List Event → UpsertOpt → Option File × Option GErr
  trash : List Event → String → Option GErr
  untrash : List Event → String → Option GErr
  serializeIndex : List Event → Index → Option GErr
  removeFile : List Event → String → Option GErr
  stat : String → Option File
  resolveChangeListRecv : List Event → Bool → String → String → Option File → Option File → List Change × Option GErr
  changeListResolve : List Event → String → String → Bool → List Change × Option GErr
  conflictsPersist : List Change → Bool
  printChangeList : List Change → Bool → Bool → Bool
  promptForChanges : Bool
  quotaStatus : List Event → Int → QuotaStatus × Option GErr

/-- The fields of the `Commands` receiver used by `push.go`: the options, the
context's absolute-path resolution, `config.IndicesAbsPath`, and the raw result of
`context.DeserializeIndex`. -/
structure Commands where
  opts : Options
  absPathOf : String → String
  indicesAbsPath : String → String
  deserializeIndexRaw : String → Option Index × Option GErr

/-- `strings.TrimRight(·, UnescapedPathSep)` on the character list. -/
def trimRightSlashesL (l : List Char) : List Char :=
  (l.reverse.dropWhile (fun c => c = '/')).reverse

/-- `strings.TrimRight(s, UnescapedPathSep)` where `UnescapedPathSep = "/"`. -/
def trimRightSlashes (s : String) : String :=
  String.mk (trimRightSlashesL s.data)

/-- Go `filepath.Split`: splits a path immediately after its final separator; the
directory part keeps its trailing separator. -/
def goFilepathSplit (p : String) : String × String :=
  let l := p.data
  let lastRev := l.reverse.takeWhile (fun c => c ≠ '/')
  (String.mk (l.take (l.length - lastRev.length)), String.mk lastRev.reverse)

/-- Splitting a character list on `/` (Go `strings.Split(p, "/")` on the character
level): the list of separator-free components, one more than the number of
separators. -/
def splitOnSlashL : List Char → List (List Char)
  | [] => [[]]
  | c :: cs =>
    if c = '/' then [] :: splitOnSlashL cs
    else
      match splitOnSlashL cs with
      | [] => [[c]]
      | h :: t => (c :: h) :: t

/-- Go `strings.Split(p, "/")`. -/
def goSplitSlash (p : String) : List String :=
  (splitOnSlashL p.data).map String.mk

/-- Joining components with `/` separators (`strings.Join(elems, "/")`). -/
def joinSlashL : List (List Char) → List Char
  | [] => []
  | [x] => x
  | x :: xs => x ++ '/' :: joinSlashL xs

/-- `strings.Join(elems, "/")` on strings. -/
def goJoinSlash (elems : List String) : String :=
  String.mk (joinSlashL (elems.map String.data))

/-- Whether a string starts with `/`. -/
def startsWithSlash (p : String) : Bool :=
  match p.data with
  | '/' :: _ => true
  | _ => false

/-- One folding step of the lexical cleaning of Go `path.Clean`, over the list of
slash-separated components (accumulator holds the output components reversed). -/
def goPathCleanStep (rooted : Bool) (acc : List String) (c : String) : List String :=
  if c = "" ∨ c = "." then acc
  else if c = ".." then
    match acc with
    | [] => if rooted then [] else [".."]
    | a :: rest => if a = ".." then c :: acc else rest
  else c :: acc

/-- Model of the documented lexical algorithm of Go `path.Clean` (an external
standard-library collaborator): collapse repeated separators, drop `.` components,
resolve `..` against preceding components, and never escape a rooted path. -/
def goPathClean (p : String) : String :=
  if p = "" then "."
  else
    let rooted := startsWithSlash p
    let comps := ((goSplitSlash p).foldl (goPathCleanStep rooted) []).reverse
    let out := goJoinSlash comps
    if rooted then "/" ++ out
    else if out = "" then "." else out

/-- Model of Go `path.Join` (external standard library): join the elements from the
first non-empty one with separators and clean the result; all-empty input gives `""`. -/
def goPathJoin (elems : List String) : String :=
  match elems.dropWhile (fun e => e = "") with
  | [] => ""
  | ne => goPathClean (goJoinSlash ne)

/-- `parentPath` from `push.go`: split on `/`, drop the last component, prepend `"/"`
and join. -/
def parentPath (p : String) : String :=
  goPathJoin ("/" :: (goSplitSlash p).dropLast)

/-- All prefixes of a character list, shortest first (the nodes a path contributes to
the trie, root included). -/
def prefixesOf (l : List Char) : List (List Char) :=
  (List.range (l.length + 1)).map (fun n => l.take n)

/-- Duplicate removal keeping the first occurrence (deterministic enumeration order
for the trie model). -/
def dedupKF {α : Type} [DecidableEq α] (l : List α) : List α :=
  l.foldl (fun acc x => if x ∈ acc then acc else acc ++ [x]) []

/-- The distinct child edges of the trie node `p` for inserted paths `P`: the first
characters by which inserted paths strictly extending `p` continue. -/
def childChars (P : List (List Char)) (p : List Char) : List Char :=
  dedupKF (P.filterMap (fun q =>
    if p.isPrefixOf q && p != q then (q.drop p.length).head? else none))

/-- All nodes of the trie built by inserting every path of `P` (every prefix of an
inserted path), in first-appearance order. -/
def trieNodes (P : List (List Char)) : List (List Char) :=
  dedupKF (P.flatMap prefixesOf)

/-- Modelled from the spec: the longest common prefix of two paths (character-wise),
the binary step of `commonPrefix`, which is not part of this excerpt. -/
def lcp2 : List Char → List Char → List Char
  | a :: as, b :: bs => if a = b then a :: lcp2 as bs else []
  | _, _ => []

/-- Modelled from the spec: `commonPrefix(values...)` — the longest common path
prefix across a set of paths (empty input gives the empty path). -/
def commonPrefixL : List (List Char) → List Char
  | [] => []
  | x :: xs => xs.foldl lcp2 x

/-- Modelled from the spec: the directory paths the Directory-Ahead Scheduler derives
from a batch of change paths using the prefix trie of the external `dts/trie`
package.  Insert every path; a potential-directory node is a node from which at least
two distinct child edges branch; for each such subtree take the end-of-string
descendant paths, compute their longest common prefix and trim trailing separators
(spec section 4.3 and its testable property: paths `a/b/c.txt`, `a/b/d.txt`,
`a/e.txt` yield directories `a` and `a/b`, each once). -/
def upsertDirs (paths : List String) : List String :=
  let P := paths.map String.data
  let pot := (trieNodes P).filter (fun p => decide (2 ≤ (childChars P p).length))
  pot.filterMap (fun p =>
    let eps := dedupKF (P.filter (fun q => p.isPrefixOf q))
    if eps.length < 1 then none
    else some (String.mk (trimRightSlashesL (commonPrefixL eps))))

/-- Modelled from the spec: the projected byte contribution of one change
(directories contribute zero; deletions contribute zero or negative; only additions
and modifications count toward projected growth).  `isPush` selects the source
(desired) side, as in the `reduceToSize(cl, true)` call of `Push`. -/
def changeProjSize (isPush : Bool) (c : Change) : Int :=
  match c.op with
  | Op.OpAdd | Op.OpMod | Op.OpModConflict =>
    match (if isPush then c.Src else c.Dest) with
    | some s => if s.IsDir then 0 else s.Size
    | none => 0
  | Op.OpDelete =>
    match (if isPush then c.Dest else c.Src) with
    | some d => if d.IsDir then 0 else -d.Size
    | none => 0
  | Op.OpNone => 0

/-- Modelled from the spec: `reduceToSize` — the aggregate byte size of a change
list (the projected additional bytes a push would transfer). -/
def reduceToSize (cl : List Change) (isPush : Bool) : Int :=
  (cl.map (changeProjSize isPush)).sum

/-- Modelled from the spec: `sift(changes)` partitions strictly on operation kind —
`ModConflict` changes go to the conflicting bucket, all others to the non-conflicting
bucket. -/
def sift (cl : List Change) : List Change × List Change :=
  (cl.filter (fun c => !(c.op == Op.OpModConflict)),
   cl.filter (fun c => c.op == Op.OpModConflict))

/-- Modelled from the spec: a conflicting change is auto-resolvable when the
destination's current metadata still matches the cached index snapshot exactly
(checksum / size / modification-time identity). -/
def autoResolvable (look : String → Option Index) (c : Change) : Bool :=
  match c.Dest with
  | some d =>
    match look d.Id with
    | some ix => d.Checksum == ix.Checksum && d.Size == ix.Size && d.ModTime == ix.ModTime
    | none => false
  | none => false

/-- Modelled from the spec: `resolveConflicts(conflicting, isPush, indexLookup)` —
auto-resolvable conflicts are re-labeled `Mod` and returned as resolved (input order
preserved); the rest are returned as unresolved. -/
def resolveConflicts : List Change → Bool → (String → Option Index) → List Change × List Change
  | [], _, _ => ([], [])
  | c :: cs, isPush, look =>
    let (r, u) := resolveConflicts cs isPush look
    if autoResolvable look c then ({ c with op := Op.OpMod } :: r, u) else (r, c :: u)

/-- `Commands.deserializeIndex`: wraps `context.DeserializeIndex` and collapses any
error to `nil`. -/
def Commands.deserializeIndex (g : Commands) (identifier : String) : Option Index :=
  match g.deserializeIndexRaw identifier with
  | (_, some _) => none
  | (ix, none) => ix

/-- `Commands.indexAbsPath`: `config.IndicesAbsPath(context root, fileId)`. -/
def Commands.indexAbsPath (g : Commands) (fileId : String) : String :=
  g.indicesAbsPath fileId

/-- The args record `remoteMod` builds for its upsert: parent identifier, absolute
local path, source (with its identifier already overwritten by the destination's
when a destination exists, `change.Src.Id = change.Dest.Id`), destination, type mask
and checksum flag. -/
def remoteModArgs (g : Commands) (change : Change) (parent : File) : UpsertOpt :=
  { parentId := parent.Id, fsAbsPath := g.absPathOf change.Path,
    src :=
      match change.Dest with
      | some d => change.Src.map (fun s => { s with Id := d.Id })
      | none => change.Src,
    dest := change.Dest, mask := g.opts.TypeMask, ignoreChecksum := g.opts.IgnoreChecksum }

/-- Body of `Commands.remoteMod` before the deferred `taskDone`: copy the
destination's identifier onto the source when a destination exists, look up the
remote parent, build the upsert request, delegate, and serialize the result's
metadata into the local index (index-write failure logged only).  An upsert error is
logged with the change's path and also returned (the caller ignores it); a parent
lookup error is returned without logging. -/
def remoteModCore (g : Commands) (env : Env) (tr : List Event) (change : Change) :
    List Event × Option GErr :=
  let parPath := parentPath change.Path
  let tr1 := tr ++ [Event.findByPath parPath]
  match env.findByPath tr1 parPath with
  | (_, some e) => (tr1, some e)
  | (none, none) => (tr1, some GErr.nilDeref)
  | (some parent, none) =>
    let args := remoteModArgs g change parent
    let tr2 := tr1 ++ [Event.upsertByComparison args]
    match env.upsertByComparison tr2 args with
    | (_, some e) => (tr2 ++ [Event.logUpsertErr change.Path e], some e)
    | (none, none) => (tr2, none)
    | (some rem, none) =>
      let ix := File.toIndex rem
      let tr3 := tr2 ++ [Event.serializeIndex ix]
      match env.serializeIndex tr3 ix with
      | some w => (tr3 ++ [Event.logIndexErr rem.Name w], none)
      | none => (tr3, none)

/-- `Commands.remoteMod` (with the deferred `g.taskDone()`). -/
def Commands.remoteMod (g : Commands) (env : Env) (tr : List Event) (change : Change) :
    List Event × Option GErr :=
  let (tr1, r) := remoteModCore g env tr change
  (tr1 ++ [Event.taskDone], r)

/-- `Commands.remoteAdd`: delegates to `remoteMod`. -/
def Commands.remoteAdd (g : Commands) (env : Env) (tr : List Event) (change : Change) :
    List Event × Option GErr :=
  g.remoteMod env tr change

/-- Body of `Commands.remoteDelete` before the deferred `taskDone`: trash the remote
object by the destination's identifier; on success remove the local index file, a
removal failure being logged but not returned. -/
def remoteDeleteCore (g : Commands) (env : Env) (tr : List Event) (change : Change) :
    List Event × Option GErr :=
  match change.Dest with
  | none => (tr, some GErr.nilDeref)
  | some d =>
    let tr1 := tr ++ [Event.trash d.Id]
    match env.trash tr1 d.Id with
    | some e => (tr1, some e)
    | none =>
      let indexPath := g.indexAbsPath d.Id
      let tr2 := tr1 ++ [Event.removeFile indexPath]
      match env.removeFile tr2 indexPath with
      | some rmErr => (tr2 ++ [Event.logRmIndexErr change.Path d.Id rmErr], none)
      | none => (tr2, none)

/-- `Commands.remoteDelete` (with the deferred `g.taskDone()`). -/
def Commands.remoteDelete (g : Commands) (env : Env) (tr : List Event) (change : Change) :
    List Event × Option GErr :=
  let (tr1, r) := remoteDeleteCore g env tr change
  (tr1 ++ [Event.taskDone], r)

/-- `Commands.remoteUntrash` (with the deferred `g.taskDone()`). -/
def Commands.remoteUntrash (g : Commands) (env : Env) (tr : List Event) (change : Change) :
    List Event × Option GErr :=
  match change.Src with
  | none => (tr ++ [Event.taskDone], some GErr.nilDeref)
  | some s => (tr ++ [Event.untrash s.Id, Event.taskDone], env.untrash (tr ++ [Event.untrash s.Id]) s.Id)

/-- The tail of `mkdirAll` once a non-nil parent is at hand: create the leaf as a new
remote directory attached to the parent's identifier via the upsert protocol, and on
success persist its metadata into the local index (index-write failure logged only). -/
def mkdirCreateLeaf (env : Env) (tr : List Event) (parent : File) (last : String) :
    List Event × Option File × Option GErr :=
  let remoteFile : File :=
    { Id := "", Name := last, IsDir := true, Size := 0, ModTime := 0, Checksum := "" }
  let args : UpsertOpt :=
    { parentId := parent.Id, fsAbsPath := "", src := some remoteFile, dest := none,
      mask := 0, ignoreChecksum := false }
  let tr1 := tr ++ [Event.upsertByComparison args]
  match env.upsertByComparison tr1 args with
  | (some newPar, none) =>
    let ix := File.toIndex newPar
    let tr2 := tr1 ++ [Event.serializeIndex ix]
    match env.serializeIndex tr2 ix with
    | some w => (tr2 ++ [Event.logIndexErr newPar.Name w], some newPar, none)
    | none => (tr2, some newPar, none)
  | (p, e) => (tr1, p, e)

/-- Fueled embedding of the recursive `Commands.mkdirAll`: re-lookup the path first
(idempotent short-circuit), fail on the root, ensure the parent (recursively when the
parent lookup finds nothing), then create the leaf.  The fuel only bounds the
recursion depth of the embedding; `Commands.mkdirAll` supplies enough for any input. -/
def mkdirAllF (g : Commands) (env : Env) : Nat → List Event → String →
    List Event × Option File × Option GErr
  | 0, tr, _ => (tr, none, some GErr.outOfFuel)
  | fuel + 1, tr, d =>
    let tr1 := tr ++ [Event.findByPath d]
    let retr := env.findByPath tr1 d
    if retr.2 = none ∧ retr.1 ≠ none then (tr1, retr.1, none)
    else
      let rl := goFilepathSplit (trimRightSlashes d)
      if rl.1 = "" ∨ rl.2 = "" then
        (tr1, none, some (GErr.other "cannot tamper with root"))
      else
        let tr2 := tr1 ++ [Event.findByPath rl.1]
        let pe := env.findByPath tr2 rl.1
        if pe.2 ≠ none ∧ pe.2 ≠ some GErr.pathNotExists then (tr2, pe.1, pe.2)
        else
          match pe.1 with
          | some parent => mkdirCreateLeaf env tr2 parent rl.2
          | none =>
            match mkdirAllF g env fuel tr2 rl.1 with
            | (tr3, none, e) => (tr3, none, e)
            | (tr3, some p, some e) => (tr3, some p, some e)
            | (tr3, some p, none) => mkdirCreateLeaf env tr3 p rl.2

/-- `Commands.mkdirAll` with fuel `d.length + 1`, which strictly exceeds the
recursion depth on every input (each recursive call drops at least the leaf component
and one separator from the path). -/
def Commands.mkdirAll (g : Commands) (env : Env) (tr : List Event) (d : String) :
    List Event × Option File × Option GErr :=
  mkdirAllF g env (d.length + 1) tr d

/-- The directory-ensure loop of `scheduleUpserts`: `mkdirAll` on each derived
directory path in turn, aborting on the first error (`return pErr`). -/
def runMkdirs (g : Commands) (env : Env) : List Event → List String → List Event × Option GErr
  | tr, [] => (tr, none)
  | tr, d :: ds =>
    match g.mkdirAll env tr d with
    | (tr1, _, some e) => (tr1, some e)
    | (tr1, _, none) => runMkdirs g env tr1 ds

/-- The per-file loop of `scheduleUpserts`: dispatch `f` on every change in order;
each call's returned error is ignored. -/
def runFiles (g : Commands) (env : Env)
    (f : Commands → Env → List Event → Change → List Event × Option GErr) :
    List Event → List Change → List Event
  | tr, [] => tr
  | tr, c :: cs => runFiles g env f (f g env tr c).1 cs

/-- `Commands.scheduleUpserts`: derive the batch's directories from the change paths
via the trie, ensure them all (aborting the batch on the first directory-creation
error), and only then dispatch the per-file function on every change. -/
def Commands.scheduleUpserts (g : Commands) (env : Env) (tr : List Event) (cl : List Change)
    (f : Commands → Env → List Event → Change → List Event × Option GErr) :
    List Event × Option GErr :=
  match runMkdirs g env tr (upsertDirs (cl.map Change.Path)) with
  | (tr1, some e) => (tr1, some e)
  | (tr1, none) => (runFiles g env f tr1 cl, none)

/-- `Commands.scheduleMods`. -/
def Commands.scheduleMods (g : Commands) (env : Env) (tr : List Event) (cl : List Change) :
    List Event × Option GErr :=
  g.scheduleUpserts env tr cl Commands.remoteMod

/-- `Commands.scheduleAdds`. -/
def Commands.scheduleAdds (g : Commands) (env : Env) (tr : List Event) (cl : List Change) :
    List Event × Option GErr :=
  g.scheduleUpserts env tr cl Commands.remoteAdd

/-- `Commands.scheduleDels`: `remoteDelete` on each change, results ignored. -/
def Commands.scheduleDels (g : Commands) (env : Env) : List Event → List Change → List Event
  | tr, [] => tr
  | tr, c :: cs => Commands.scheduleDels g env (g.remoteDelete env tr c).1 cs

/-- The partition loop of `playPushChangeList`: one pass splitting the change list by
operation kind into adds, mods (conflict mods included) and deletes; other kinds are
dropped. -/
def partitionChanges (cl : List Change) : List Change × List Change × List Change :=
  cl.foldl (fun acc c =>
    match c.op with
    | Op.OpMod => (acc.1, acc.2.1 ++ [c], acc.2.2)
    | Op.OpModConflict => (acc.1, acc.2.1 ++ [c], acc.2.2)
    | Op.OpAdd => (acc.1 ++ [c], acc.2.1, acc.2.2)
    | Op.OpDelete => (acc.1, acc.2.1, acc.2.2 ++ [c])
    | Op.OpNone => acc) ([], [], [])

/-- `Commands.playPushChangeList`: start the completion tracker, partition, schedule
adds then mods then deletes (the disabled precedence sort is omitted as dead code),
finish the tracker and return `nil` — the schedulers' errors are not propagated. -/
def Commands.playPushChangeList (g : Commands) (env : Env) (tr : List Event) (cl : List Change) :
    List Event × Option GErr :=
  let tr0 := tr ++ [Event.taskStart cl.length]
  let parts := partitionChanges cl
  let tr1 := (g.scheduleAdds env tr0 parts.1).1
  let tr2 := (g.scheduleMods env tr1 parts.2.1).1
  let tr3 := Commands.scheduleDels g env tr2 parts.2.2
  (tr3 ++ [Event.taskFinish], none)

/-- `lonePush`: look the mount's name up remotely (hard lookup errors abort with that
error), stat the local mount path, and delegate to the external
`resolveChangeListRecv` collaborator. -/
def lonePush (g : Commands) (env : Env) (tr : List Event) (parent absPath path : String) :
    List Event × List Change × Option GErr :=
  let tr1 := tr ++ [Event.findByPath absPath]
  let re := env.findByPath tr1 absPath
  if re.2 ≠ none ∧ re.2 ≠ some GErr.pathNotExists then (tr1, [], re.2)
  else
    let l := env.stat path
    let (cl, er) := env.resolveChangeListRecv tr1 true parent absPath re.1 l
    (tr1, cl, er)

/-- The source loop of `Push`: resolve each requested source path's change list via
the external collaborator, aborting the whole push on the first resolution error. -/
def collectSources (g : Commands) (env : Env) :
    List Event → List String → List Change → List Event × Except GErr (List Change)
  | tr, [], acc => (tr, Except.ok acc)
  | tr, s :: ss, acc =>
    let fsPath := g.absPathOf s
    let (ccl, ce) := env.changeListResolve tr s fsPath true
    match ce with
    | some e => (tr, Except.error e)
    | none => collectSources g env tr ss (if 0 < ccl.length then acc ++ ccl else acc)

/-- The mount loop of `Push`: `lonePush` each mount point; a mount whose resolution
fails is silently skipped (its changes are omitted and no error is surfaced). -/
def collectMounts (g : Commands) (env : Env) :
    List Event → List MountPoint → List Change → List Event × List Change
  | tr, [], acc => (tr, acc)
  | tr, mt :: mts, acc =>
    match lonePush g env tr (g.absPathOf "") mt.Name mt.MountPath with
    | (tr1, ccl, ce) =>
      collectMounts g env tr1 mts (if ce = none then acc ++ ccl else acc)

/-- The mount points of the options (`nil` mount contributes none). -/
def Options.mountPoints (o : Options) : List MountPoint :=
  match o.MountOpt with
  | none => []
  | some m => m.Points

/-- The accumulation phase of `Push`: announce, resolve every requested source path
(aborting on error) and then every attached mount point (failures skipped). -/
def Commands.pushCollect (g : Commands) (env : Env) : List Event × Except GErr (List Change) :=
  let tr := [Event.printResolving]
  match collectSources g env tr g.opts.Sources [] with
  | (tr1, Except.error e) => (tr1, Except.error e)
  | (tr1, Except.ok cl) =>
    let (tr2, cl2) := collectMounts g env tr1 g.opts.mountPoints cl
    (tr2, Except.ok cl2)

/-- The `switch quotaStatus` statement of `Push`: the trace after the printed
classification message and the `unSafe` flag. -/
def quotaSwitch (tr1 : List Event) (qs : QuotaStatus) : List Event × Bool :=
  match qs with
  | QuotaStatus.AlmostExceeded => (tr1 ++ [Event.printAlmostExceeded], false)
  | QuotaStatus.Exceeded => (tr1 ++ [Event.printExceeded], true)
  | QuotaStatus.Ok => (tr1, false)

/-- The tail of `Push` after a successful quota query: print the classification
message, require explicit confirmation when the quota would be exceeded (returning
with nothing applied if it is declined), and play the change list. -/
def pushAfterQuota (g : Commands) (env : Env) (merged : List Change) (tr1 : List Event)
    (pushSize : Int) (qsr : QuotaStatus × Option GErr) : List Event × Option GErr :=
  match qsr with
  | (_, some qe) => (tr1, some qe)
  | (qs, none) =>
    let step := quotaSwitch tr1 qs
    if step.2 then
      let tr2 := step.1 ++ [Event.printProjectedSize pushSize]
      if env.promptForChanges then g.playPushChangeList env tr2 merged
      else (tr2, none)
    else g.playPushChangeList env step.1 merged

/-- The tail of `Push` after conflict handling: present the merged list, and if
confirmed compute the projected push size over the originally accumulated list,
query the quota classification (aborting on query error) and continue into the
quota gate. -/
def pushAfterConflicts (g : Commands) (env : Env) (tr : List Event) (cl merged : List Change) :
    List Event × Option GErr :=
  if env.printChangeList merged g.opts.NoPrompt g.opts.NoClobber then
    let pushSize := reduceToSize cl true
    let tr1 := tr ++ [Event.quotaQuery pushSize]
    pushAfterQuota g env merged tr1 pushSize (env.quotaStatus tr1 pushSize)
  else (tr, none)

/-- The conflict-handling phase of `Push`: sift, resolve, return early (applying
nothing) when unresolved conflicts remain and the user declines, otherwise
force-include the unresolved conflicts, merge everything back and continue. -/
def pushResolveAndApply (g : Commands) (env : Env) (tr : List Event) (cl : List Change) :
    List Event × Option GErr :=
  let nonConflicts := (sift cl).1
  let conflicts := (sift cl).2
  let rx := resolveConflicts conflicts true g.deserializeIndex
  if 1 ≤ rx.2.length then
    if env.conflictsPersist rx.2 then (tr, none)
    else pushAfterConflicts g env tr cl (nonConflicts ++ (rx.1 ++ rx.2))
  else pushAfterConflicts g env tr cl (nonConflicts ++ rx.1)

/-- `Commands.Push` without the deferred mount-point cleanup. -/
def Commands.pushBody (g : Commands) (env : Env) : List Event × Option GErr :=
  match g.pushCollect env with
  | (tr, Except.error e) => (tr, some e)
  | (tr, Except.ok cl) => pushResolveAndApply g env tr cl

/-- `Commands.Push`: the push entry point, with the deferred `clearMountPoints`
appended on every exit path. -/
def Commands.Push (g : Commands) (env : Env) : List Event × Option GErr :=
  let (tr, r) := g.pushBody env
  (tr ++ [Event.clearMountPoints], r)

/-- The unresolved-conflict list `Push` computes for an accumulated change list. -/
def pushUnresolved (g : Commands) (cl : List Change) : List Change :=
  (resolveConflicts (sift cl).2 true g.deserializeIndex).2

/-- The merged list of changes `Push` hands to confirmation and application: the
non-conflicting changes followed by the resolved and the force-included unresolved
conflicts. -/
def pushMergedList (g : Commands) (cl : List Change) : List Change :=
  (sift cl).1 ++ ((resolveConflicts (sift cl).2 true g.deserializeIndex).1 ++
    (resolveConflicts (sift cl).2 true g.deserializeIndex).2)

/-- The remote root folder used by the concrete test environments below. -/
def rootF : File :=
  { Id := "rootId", Name := "", IsDir := true, Size := 0, ModTime := 0, Checksum := "" }

/-- A local source file of size 5 used by the concrete test environments below. -/
def srcF : File :=
  { Id := "", Name := "x.txt", IsDir := false, Size := 5, ModTime := 1, Checksum := "abc" }

/-- The remote counterpart of `srcF` after an upsert. -/
def remF : File :=
  { Id := "idX", Name := "x.txt", IsDir := false, Size := 5, ModTime := 1, Checksum := "abc" }

/-- A single `Add` change for `/x.txt`, used by the concrete test environments. -/
def addChange : Change :=
  { Path := "/x.txt", Src := some srcF, Dest := none, op := Op.OpAdd }

/-- A default `Commands` receiver for concrete runs. -/
def gBase : Commands :=
  { opts :=
      { Sources := [], MountOpt := none, NoPrompt := false, NoClobber := false,
        TypeMask := 0, IgnoreChecksum := false },
    absPathOf := fun s => s,
    indicesAbsPath := fun fid => "idx/" ++ fid,
    deserializeIndexRaw := fun _ => (none, some (GErr.other "no index")) }

/-- A default environment: remote finds the root by the paths `/` and the empty
path, every other lookup misses; upserts succeed returning `remF`; everything else
succeeds trivially. -/
def envBase : Env :=
  { findByPath := fun _ p => if p = "/" ∨ p = "" then (some rootF, none) else (none, some GErr.pathNotExists),
    upsertByComparison := fun _ _ => (some remF, none),
    trash := fun _ _ => none,
    untrash := fun _ _ => none,
    serializeIndex := fun _ _ => none,
    removeFile := fun _ _ => none,
    stat := fun _ => none,
    resolveChangeListRecv := fun _ _ _ _ _ _ => ([], none),
    changeListResolve := fun _ _ _ _ => ([addChange], none),
    conflictsPersist := fun _ => false,
    printChangeList := fun _ _ _ => true,
    promptForChanges := false,
    quotaStatus := fun _ _ => (QuotaStatus.Ok, none) }

/-- `gBase` with one requested source path. -/
def gSrc : Commands :=
  { gBase with opts :=
    { Sources := ["s"], MountOpt := none, NoPrompt := false, NoClobber := false,
      TypeMask := 0, IgnoreChecksum := false } }

/-- Environment whose remote lookup always finds the root folder. -/
def envFound : Env :=
  { envBase with findByPath := fun _ _ => (some rootF, none) }

/-- Environment whose remote lookup always misses. -/
def envMiss : Env :=
  { envBase with findByPath := fun _ _ => (none, some GErr.pathNotExists) }

/-- Environment whose remote lookup always fails hard. -/
def envFindErr : Env :=
  { envBase with findByPath := fun _ _ => (none, some (GErr.other "boom")) }

/-- Environment whose upserts always fail. -/
def envUpFail : Env :=
  { envBase with upsertByComparison := fun _ _ => (none, some (GErr.other "boom")) }

/-- Environment where only the root exists remotely and every upsert fails (so
directory creation fails). -/
def envDirFail : Env :=
  { envBase with
    findByPath := fun _ p => if p = "/" then (some rootF, none) else (none, some GErr.pathNotExists),
    upsertByComparison := fun _ _ => (none, some (GErr.other "boom")) }

/-- Environment whose local index-file removal fails. -/
def envRmFail : Env :=
  { envBase with removeFile := fun _ _ => some (GErr.other "denied") }

/-- A modify change for `/x.txt` whose destination is the remote `remF`. -/
def modChange : Change :=
  { Path := "/x.txt", Src := some srcF, Dest := some remF, op := Op.OpMod }

/-- A conflicting change for `/x.txt`. -/
def confChange : Change :=
  { Path := "/x.txt", Src := some srcF, Dest := some remF, op := Op.OpModConflict }

/-- A delete change for `/x.txt`. -/
def delChange : Change :=
  { Path := "/x.txt", Src := none, Dest := some remF, op := Op.OpDelete }

/-- Two add changes below a shared new directory `/a`. -/
def cA : Change :=
  { Path := "/a/x", Src := some srcF, Dest := none, op := Op.OpAdd }

/-- Second add change below `/a`. -/
def cB : Change :=
  { Path := "/a/y", Src := some srcF, Dest := none, op := Op.OpAdd }

/-- A mount point fixture. -/
def mtP : MountPoint :=
  { Name := "m", MountPath := "/mnt" }

/-- Environment where a conflict surfaces and the user declines to proceed. -/
def envC3 : Env :=
  { envBase with
    changeListResolve := fun _ _ _ _ => ([confChange], none),
    conflictsPersist := fun _ => true }

/-- Environment whose quota classification is `Exceeded` (confirmation stays
declined, as in `envBase`). -/
def envC4 : Env :=
  { envBase with quotaStatus := fun _ _ => (QuotaStatus.Exceeded, none) }

/-- Environment where mount-point change resolution fails. -/
def envMountFail : Env :=
  { envBase with resolveChangeListRecv := fun _ _ _ _ _ _ => ([], some (GErr.other "mfail")) }

/-- Environment where source change resolution fails. -/
def envSrcFail : Env :=
  { envBase with changeListResolve := fun _ _ _ _ => ([], some (GErr.other "sfail")) }

theorem pre1 {α : Type} (tr a : List α) : tr <+: tr ++ a :=
  List.prefix_append tr a

theorem pre2 {α : Type} (tr a b : List α) : tr <+: (tr ++ a) ++ b :=
  (pre1 tr a).trans (pre1 (tr ++ a) b)

theorem pre3 {α : Type} (tr a b c : List α) : tr <+: ((tr ++ a) ++ b) ++ c :=
  (pre2 tr a b).trans (pre1 _ c)

theorem pre4 {α : Type} (tr a b c d : List α) : tr <+: (((tr ++ a) ++ b) ++ c) ++ d :=
  (pre3 tr a b c).trans (pre1 _ d)

/-- `remoteModCore` only appends to the trace. -/
theorem remoteModCore_ext (g : Commands) (env : Env) (tr : List Event) (c : Change) :
    tr <+: (remoteModCore g env tr c).1 := by
  simp only [remoteModCore]
  split
  · exact pre1 _ _
  · exact pre1 _ _
  · split
    · exact pre3 _ _ _ _
    · exact pre2 _ _ _
    · split
      · exact pre4 _ _ _ _ _
      · exact pre3 _ _ _ _

/-- `remoteMod` only appends to the trace. -/
theorem remoteMod_ext (g : Commands) (env : Env) (tr : List Event) (c : Change) :
    tr <+: (g.remoteMod env tr c).1 := by
  simp only [Commands.remoteMod]
  exact (remoteModCore_ext g env tr c).trans (pre1 _ _)

/-- `remoteAdd` only appends to the trace. -/
theorem remoteAdd_ext (g : Commands) (env : Env) (tr : List Event) (c : Change) :
    tr <+: (g.remoteAdd env tr c).1 :=
  remoteMod_ext g env tr c

/-- `remoteDeleteCore` only appends to the trace. -/
theorem remoteDeleteCore_ext (g : Commands) (env : Env) (tr : List Event) (c : Change) :
    tr <+: (remoteDeleteCore g env tr c).1 := by
  simp only [remoteDeleteCore]
  split
  · exact List.prefix_rfl
  · split
    · exact pre1 _ _
    · split
      · exact pre3 _ _ _ _
      · exact pre2 _ _ _

/-- `remoteDelete` only appends to the trace. -/
theorem remoteDelete_ext (g : Commands) (env : Env) (tr : List Event) (c : Change) :
    tr <+: (g.remoteDelete env tr c).1 := by
  simp only [Commands.remoteDelete]
  exact (remoteDeleteCore_ext g env tr c).trans (pre1 _ _)

/-- `mkdirCreateLeaf` only appends to the trace. -/
theorem mkdirCreateLeaf_ext (env : Env) (tr : List Event) (parent : File) (last : String) :
    tr <+: (mkdirCreateLeaf env tr parent last).1 := by
  simp only [mkdirCreateLeaf]
  split
  · split
    · exact pre3 _ _ _ _
    · exact pre2 _ _ _
  · exact pre1 _ _

/-- The fueled `mkdirAll` only appends to the trace. -/
theorem mkdirAllF_ext (g : Commands) (env : Env) (fuel : Nat) :
    ∀ (tr : List Event) (d : String), tr <+: (mkdirAllF g env fuel tr d).1 := by
  induction fuel with
  | zero => intro tr d; exact List.prefix_rfl
  | succ n ih =>
    intro tr d
    simp only [mkdirAllF]
    split
    · exact pre1 _ _
    · split
      · exact pre1 _ _
      · split
        · exact pre2 _ _ _
        · split
          · exact (pre2 _ _ _).trans (mkdirCreateLeaf_ext _ _ _ _)
          · split
            · rename_i tr3 e heq
              have h1 := ih ((tr ++ [Event.findByPath d]) ++
                [Event.findByPath (goFilepathSplit (trimRightSlashes d)).1])
                (goFilepathSplit (trimRightSlashes d)).1
              rw [heq] at h1
              exact (pre2 _ _ _).trans h1
            · rename_i tr3 p e heq
              have h1 := ih ((tr ++ [Event.findByPath d]) ++
                [Event.findByPath (goFilepathSplit (trimRightSlashes d)).1])
                (goFilepathSplit (trimRightSlashes d)).1
              rw [heq] at h1
              exact (pre2 _ _ _).trans h1
            · rename_i tr3 p heq
              have h1 := ih ((tr ++ [Event.findByPath d]) ++
                [Event.findByPath (goFilepathSplit (trimRightSlashes d)).1])
                (goFilepathSplit (trimRightSlashes d)).1
              rw [heq] at h1
              exact ((pre2 _ _ _).trans h1).trans (mkdirCreateLeaf_ext _ _ _ _)

/-- `mkdirAll` only appends to the trace. -/
theorem mkdirAll_ext (g : Commands) (env : Env) (tr : List Event) (d : String) :
    tr <+: (g.mkdirAll env tr d).1 :=
  mkdirAllF_ext g env (d.length + 1) tr d

/-- The directory-ensure loop only appends to the trace. -/
theorem runMkdirs_ext (g : Commands) (env : Env) :
    ∀ (ds : List String) (tr : List Event), tr <+: (runMkdirs g env tr ds).1 := by
  intro ds
  induction ds with
  | nil => intro tr; exact List.prefix_rfl
  | cons d ds ih =>
    intro tr
    simp only [runMkdirs]
    split
    · rename_i tr1 x e heq
      have h1 := mkdirAll_ext g env tr d
      rw [heq] at h1
      exact h1
    · rename_i tr1 x heq
      have h1 := mkdirAll_ext g env tr d
      rw [heq] at h1
      exact h1.trans (ih tr1)

/-- The per-file loop only appends to the trace, provided the dispatched function
does. -/
theorem runFiles_ext (g : Commands) (env : Env)
    (f : Commands → Env → List Event → Change → List Event × Option GErr)
    (hf : ∀ (tr : List Event) (c : Change), tr <+: (f g env tr c).1) :
    ∀ (cl : List Change) (tr : List Event), tr <+: runFiles g env f tr cl := by
  intro cl
  induction cl with
  | nil => intro tr; exact List.prefix_rfl
  | cons c cs ih =>
    intro tr
    simp only [runFiles]
    exact (hf tr c).trans (ih (f g env tr c).1)

/-- `scheduleUpserts` only appends to the trace, provided the dispatched function
does. -/
theorem scheduleUpserts_ext (g : Commands) (env : Env) (tr : List Event) (cl : List Change)
    (f : Commands → Env → List Event → Change → List Event × Option GErr)
    (hf : ∀ (tr : List Event) (c : Change), tr <+: (f g env tr c).1) :
    tr <+: (g.scheduleUpserts env tr cl f).1 := by
  simp only [Commands.scheduleUpserts]
  split
  · rename_i tr1 e heq
    have h1 := runMkdirs_ext g env (upsertDirs (cl.map Change.Path)) tr
    rw [heq] at h1
    exact h1
  · rename_i tr1 heq
    have h1 := runMkdirs_ext g env (upsertDirs (cl.map Change.Path)) tr
    rw [heq] at h1
    exact h1.trans (runFiles_ext g env f hf cl tr1)

/-- `scheduleDels` only appends to the trace. -/
theorem scheduleDels_ext (g : Commands) (env : Env) :
    ∀ (cl : List Change) (tr : List Event), tr <+: Commands.scheduleDels g env tr cl := by
  intro cl
  induction cl with
  | nil => intro tr; exact List.prefix_rfl
  | cons c cs ih =>
    intro tr
    simp only [Commands.scheduleDels]
    exact (remoteDelete_ext g env tr c).trans (ih (g.remoteDelete env tr c).1)

/-- `scheduleAdds` only appends to the trace. -/
theorem scheduleAdds_ext (g : Commands) (env : Env) (tr : List Event) (cl : List Change) :
    tr <+: (g.scheduleAdds env tr cl).1 :=
  scheduleUpserts_ext g env tr cl Commands.remoteAdd (remoteAdd_ext g env)

/-- `scheduleMods` only appends to the trace. -/
theorem scheduleMods_ext (g : Commands) (env : Env) (tr : List Event) (cl : List Change) :
    tr <+: (g.scheduleMods env tr cl).1 :=
  scheduleUpserts_ext g env tr cl Commands.remoteMod (remoteMod_ext g env)

/-- `playPushChangeList` only appends to the trace. -/
theorem playPushChangeList_ext (g : Commands) (env : Env) (tr : List Event) (cl : List Change) :
    tr <+: (g.playPushChangeList env tr cl).1 := by
  simp only [Commands.playPushChangeList]
  exact ((((pre1 tr _).trans (scheduleAdds_ext g env _ _)).trans
    (scheduleMods_ext g env _ _)).trans (scheduleDels_ext g env _ _)).trans (pre1 _ _)

/-- `lonePush` appends exactly the remote lookup of its `absPath` argument. -/
theorem lonePush_trace (g : Commands) (env : Env) (tr : List Event) (parent absPath path : String) :
    (lonePush g env tr parent absPath path).1 = tr ++ [Event.findByPath absPath] := by
  simp only [lonePush]
  split
  · rfl
  · rfl

/-- The source loop issues no events of its own. -/
theorem collectSources_trace (g : Commands) (env : Env) :
    ∀ (ss : List String) (tr : List Event) (acc : List Change),
      (collectSources g env tr ss acc).1 = tr := by
  intro ss
  induction ss with
  | nil => intro tr acc; rfl
  | cons s ss ih =>
    intro tr acc
    simp only [collectSources]
    split
    · rfl
    · exact ih tr _

/-- Every event after the mount loop was either already present or is a remote
lookup. -/
theorem collectMounts_events (g : Commands) (env : Env) :
    ∀ (mts : List MountPoint) (tr : List Event) (acc : List Change) (ev : Event),
      ev ∈ (collectMounts g env tr mts acc).1 → ev ∈ tr ∨ ∃ p, ev = Event.findByPath p := by
  intro mts
  induction mts with
  | nil => intro tr acc ev h; exact Or.inl h
  | cons mt mts ih =>
    intro tr acc ev h
    simp only [collectMounts] at h
    rcases ih _ _ ev h with hin | hfind
    · rw [lonePush_trace] at hin
      rcases List.mem_append.mp hin with hl | hr
      · exact Or.inl hl
      · right
        rcases List.mem_singleton.mp hr with rfl
        exact ⟨mt.Name, rfl⟩
    · exact Or.inr hfind

/-- Every event in the trace of the accumulation phase of `Push` is a non-mutating
one (the announcement or a remote lookup). -/
theorem pushCollect_no_mutation (g : Commands) (env : Env) :
    ∀ ev ∈ (g.pushCollect env).1, ev.isRemoteMutation = false := by
  intro ev h
  simp only [Commands.pushCollect] at h
  have hmut : ev = Event.printResolving ∨ (∃ p, ev = Event.findByPath p) → ev.isRemoteMutation = false := by
    rintro (rfl | ⟨p, rfl⟩) <;> rfl
  apply hmut
  split at h
  · rename_i tr1 e heq
    have ht : tr1 = [Event.printResolving] := by
      have h0 := collectSources_trace g env g.opts.Sources [Event.printResolving] []
      rw [heq] at h0
      simpa using h0
    rw [ht] at h
    rcases List.mem_singleton.mp h with rfl
    exact Or.inl rfl
  · rename_i tr1 cl heq
    have ht : tr1 = [Event.printResolving] := by
      have h0 := collectSources_trace g env g.opts.Sources [Event.printResolving] []
      rw [heq] at h0
      simpa using h0
    rcases collectMounts_events g env g.opts.mountPoints tr1 cl ev h with hin | hf
    · rw [ht] at hin
      rcases List.mem_singleton.mp hin with rfl
      exact Or.inl rfl
    · exact Or.inr hf

/-- `reduceToSize` is additive over concatenation. -/
theorem reduceToSize_append (a b : List Change) :
    reduceToSize (a ++ b) true = reduceToSize a true + reduceToSize b true := by
  simp [reduceToSize]

/-- Sifting splits the aggregate size of a change list between the two buckets. -/
theorem sift_sum (cl : List Change) :
    reduceToSize cl true = reduceToSize (sift cl).1 true + reduceToSize (sift cl).2 true := by
  induction cl with
  | nil => simp [sift, reduceToSize]
  | cons c cs ih =>
    by_cases hc : c.op = Op.OpModConflict
    · simp only [sift, List.filter_cons] at ih ⊢
      simp [hc, reduceToSize] at ih ⊢
      omega
    · simp only [sift, List.filter_cons] at ih ⊢
      simp [hc, reduceToSize] at ih ⊢
      omega

/-- Re-labeling a conflict `Mod` does not change its projected size. -/
theorem relabel_size (c : Change) (hc : c.op = Op.OpModConflict) :
    changeProjSize true { c with op := Op.OpMod } = changeProjSize true c := by
  simp [changeProjSize, hc]

/-- Conflict resolution splits the aggregate size of the conflicting bucket between
the resolved and the unresolved lists. -/
theorem resolveConflicts_sum (look : String → Option Index) :
    ∀ (cs : List Change), (∀ c ∈ cs, c.op = Op.OpModConflict) →
      reduceToSize (resolveConflicts cs true look).1 true +
        reduceToSize (resolveConflicts cs true look).2 true = reduceToSize cs true := by
  intro cs
  induction cs with
  | nil => intro hops; simp [resolveConflicts, reduceToSize]
  | cons c cs ih =>
    intro hops
    have hc := hops c (List.mem_cons_self c cs)
    have hcs : ∀ x ∈ cs, x.op = Op.OpModConflict := fun x hx => hops x (List.mem_cons_of_mem c hx)
    simp only [resolveConflicts]
    split
    · simp only [reduceToSize, List.map_cons, List.sum_cons] at ih ⊢
      have hrel := relabel_size c hc
      rw [hrel]
      have := ih hcs
      omega
    · simp only [reduceToSize, List.map_cons, List.sum_cons] at ih ⊢
      have := ih hcs
      omega

/-- All changes in the conflicting bucket are `ModConflict` changes. -/
theorem sift_conflicts_op (cl : List Change) :
    ∀ c ∈ (sift cl).2, c.op = Op.OpModConflict := by
  intro c hc
  simp only [sift, List.mem_filter] at hc
  exact beq_iff_eq.mp hc.2

/-- The aggregate size of the merged (to-be-pushed) list equals the aggregate size
of the originally accumulated change list. -/
theorem merged_sum (g : Commands) (cl : List Change) :
    reduceToSize (pushMergedList g cl) true = reduceToSize cl true := by
  simp only [pushMergedList, reduceToSize_append]
  have h1 := sift_sum cl
  have h2 := resolveConflicts_sum g.deserializeIndex (sift cl).2 (sift_conflicts_op cl)
  omega

/-- `remoteModCore` marks no completion units. -/
theorem remoteModCore_count (g : Commands) (env : Env) (tr : List Event) (c : Change) :
    ((remoteModCore g env tr c).1).count Event.taskDone = tr.count Event.taskDone := by
  simp only [remoteModCore]
  split
  · simp [List.count_append]
  · simp [List.count_append]
  · split
    · simp [List.count_append]
    · simp [List.count_append]
    · split
      · simp [List.count_append]
      · simp [List.count_append]

/-- `remoteMod` marks exactly one completion unit (the deferred `taskDone`),
whether or not it fails. -/
theorem remoteMod_count (g : Commands) (env : Env) (tr : List Event) (c : Change) :
    ((g.remoteMod env tr c).1).count Event.taskDone = tr.count Event.taskDone + 1 := by
  simp only [Commands.remoteMod]
  simp [List.count_append, remoteModCore_count g env tr c]

/-- The per-file loop with `remoteMod` marks one completion unit per change in the
batch, whatever the individual outcomes: no failure stops the remaining dispatches. -/
theorem runFiles_remoteMod_count (g : Commands) (env : Env) :
    ∀ (cl : List Change) (tr : List Event),
      (runFiles g env Commands.remoteMod tr cl).count Event.taskDone =
        tr.count Event.taskDone + cl.length := by
  intro cl
  induction cl with
  | nil => intro tr; simp [runFiles]
  | cons c cs ih =>
    intro tr
    simp only [runFiles]
    rw [ih (g.remoteMod env tr c).1, remoteMod_count g env tr c]
    simp [List.length_cons]
    omega

/-- When unresolved conflicts do not persist (none remain, or the user confirms),
the conflict-handling phase continues into the quota gate with the merged list. -/
theorem pushResolve_not_declined (g : Commands) (env : Env) (tr : List Event) (cl : List Change)
    (h : ¬(1 ≤ (pushUnresolved g cl).length ∧ env.conflictsPersist (pushUnresolved g cl) = true)) :
    pushResolveAndApply g env tr cl = pushAfterConflicts g env tr cl (pushMergedList g cl) := by
  simp only [pushUnresolved] at h
  simp only [pushResolveAndApply, pushMergedList]
  by_cases hlen : 1 ≤ (resolveConflicts (sift cl).2 true g.deserializeIndex).2.length
  · have hpers : env.conflictsPersist (resolveConflicts (sift cl).2 true g.deserializeIndex).2 = false := by
      rcases Bool.eq_false_or_eq_true (env.conflictsPersist (resolveConflicts (sift cl).2 true g.deserializeIndex).2) with hp | hp
      · exact absurd ⟨hlen, hp⟩ h
      · exact hp
    rw [if_pos hlen, if_neg (by rw [hpers]; exact Bool.false_ne_true)]
  · have hnil : (resolveConflicts (sift cl).2 true g.deserializeIndex).2 = [] := by
      rcases Nat.lt_or_ge (resolveConflicts (sift cl).2 true g.deserializeIndex).2.length 1 with hl | hl
      · exact List.length_eq_zero.mp (Nat.lt_one_iff.mp hl)
      · exact absurd hl hlen
    rw [if_neg hlen, hnil]
    simp

/-- `playPushChangeList` always returns `nil` (the schedulers' errors are not
propagated). -/
theorem playPushChangeList_result (g : Commands) (env : Env) (tr : List Event) (cl : List Change) :
    (g.playPushChangeList env tr cl).2 = none :=
  rfl

/-- Equation: a quota-query error aborts with that error and no further events. -/
theorem pushAfterQuota_err (g : Commands) (env : Env) (merged : List Change) (tr1 : List Event)
    (ps : Int) (qs : QuotaStatus) (e : GErr) :
    pushAfterQuota g env merged tr1 ps (qs, some e) = (tr1, some e) := by
  cases qs <;> simp [pushAfterQuota]

/-- Equation: classification `Ok` proceeds straight to playing the change list. -/
theorem pushAfterQuota_ok (g : Commands) (env : Env) (merged : List Change) (tr1 : List Event)
    (ps : Int) :
    pushAfterQuota g env merged tr1 ps (QuotaStatus.Ok, none) =
      g.playPushChangeList env tr1 merged := by
  simp [pushAfterQuota, quotaSwitch]

/-- Equation: classification `AlmostExceeded` prints its message and proceeds to
playing the change list with no confirmation required. -/
theorem pushAfterQuota_almost (g : Commands) (env : Env) (merged : List Change) (tr1 : List Event)
    (ps : Int) :
    pushAfterQuota g env merged tr1 ps (QuotaStatus.AlmostExceeded, none) =
      g.playPushChangeList env (tr1 ++ [Event.printAlmostExceeded]) merged := by
  simp [pushAfterQuota, quotaSwitch]

/-- Equation: classification `Exceeded` with confirmation declined returns `nil`
after the two messages, playing nothing. -/
theorem pushAfterQuota_exceeded_declined (g : Commands) (env : Env) (merged : List Change)
    (tr1 : List Event) (ps : Int) (hp : env.promptForChanges = false) :
    pushAfterQuota g env merged tr1 ps (QuotaStatus.Exceeded, none) =
      (tr1 ++ [Event.printExceeded, Event.printProjectedSize ps], none) := by
  simp [pushAfterQuota, quotaSwitch, hp]

/-- Equation: classification `Exceeded` with explicit confirmation proceeds to
playing the change list. -/
theorem pushAfterQuota_exceeded_confirmed (g : Commands) (env : Env) (merged : List Change)
    (tr1 : List Event) (ps : Int) (hp : env.promptForChanges = true) :
    pushAfterQuota g env merged tr1 ps (QuotaStatus.Exceeded, none) =
      g.playPushChangeList env (tr1 ++ [Event.printExceeded, Event.printProjectedSize ps])
        merged := by
  simp [pushAfterQuota, quotaSwitch, hp]

/-- Once the merged list is confirmed, the quota gate queries the classification
with exactly the projected size of the originally accumulated list, and everything
afterwards only extends the trace. -/
theorem pushAfterConflicts_quota_trace (g : Commands) (env : Env) (tr : List Event)
    (cl merged : List Change)
    (hok : env.printChangeList merged g.opts.NoPrompt g.opts.NoClobber = true) :
    ∃ rest, (pushAfterConflicts g env tr cl merged).1 =
      tr ++ Event.quotaQuery (reduceToSize cl true) :: rest := by
  simp only [pushAfterConflicts, hok, if_true]
  rcases hq : env.quotaStatus (tr ++ [Event.quotaQuery (reduceToSize cl true)])
    (reduceToSize cl true) with ⟨qs, qe⟩
  rcases qe with _ | e
  · rcases qs with _ | _ | _
    · rw [pushAfterQuota_ok]
      rcases playPushChangeList_ext g env
        (tr ++ [Event.quotaQuery (reduceToSize cl true)]) merged with ⟨r, hr⟩
      refine ⟨r, ?_⟩
      rw [← hr]
      simp
    · rw [pushAfterQuota_almost]
      rcases playPushChangeList_ext g env
        ((tr ++ [Event.quotaQuery (reduceToSize cl true)]) ++ [Event.printAlmostExceeded])
        merged with ⟨r, hr⟩
      refine ⟨Event.printAlmostExceeded :: r, ?_⟩
      rw [← hr]
      simp
    · rcases hp : env.promptForChanges with _ | _
      · rw [pushAfterQuota_exceeded_declined g env merged _ _ hp]
        refine ⟨[Event.printExceeded,
          Event.printProjectedSize (reduceToSize cl true)], ?_⟩
        simp
      · rw [pushAfterQuota_exceeded_confirmed g env merged _ _ hp]
        rcases playPushChangeList_ext g env
          ((tr ++ [Event.quotaQuery (reduceToSize cl true)]) ++
            [Event.printExceeded, Event.printProjectedSize (reduceToSize cl true)])
          merged with ⟨r, hr⟩
        refine ⟨Event.printExceeded :: Event.printProjectedSize (reduceToSize cl true) :: r, ?_⟩
        rw [← hr]
        simp
  · exact ⟨[], by rw [pushAfterQuota_err]⟩

/-- C6: for every path `d`, if the remote lookup of `d` succeeds with a non-nil
file, `mkdirAll d` returns that file immediately and performs no creation or upsert
call; consequently a second `mkdirAll` for an already-created path short-circuits
creation, and at most one logical remote directory object represents the path. -/
theorem mkdirAll_short_circuit (g : Commands) (env : Env) (tr : List Event) (d : String)
    (f0 : File) (h : env.findByPath (tr ++ [Event.findByPath d]) d = (some f0, none)) :
    g.mkdirAll env tr d = (tr ++ [Event.findByPath d], some f0, none)
    ∧ ∀ ev ∈ (g.mkdirAll env tr d).1, ev ∉ tr → ev.isRemoteMutation = false := by
  have h1 : g.mkdirAll env tr d = (tr ++ [Event.findByPath d], some f0, none) := by
    simp [Commands.mkdirAll, mkdirAllF, h]
  refine ⟨h1, ?_⟩
  rw [h1]
  intro ev hmem hnot
  rcases List.mem_append.mp hmem with hin | hone
  · exact absurd hin hnot
  · rcases List.mem_singleton.mp hone with rfl
    rfl

/-- C6 witness: an environment where the lookup finds the root — `mkdirAll` returns
it at once, with the lookup as its only event. -/
theorem mkdirAll_short_circuit_witness :
    envFound.findByPath ([] ++ [Event.findByPath "/a"]) "/a" = (some rootF, none)
    ∧ gBase.mkdirAll envFound [] "/a" = ([] ++ [Event.findByPath "/a"], some rootF, none) :=
  ⟨by decide, (mkdirAll_short_circuit gBase envFound [] "/a" rootF (by decide)).1⟩

/-- C9 counterexample: on the root path (not found remotely) `mkdirAll` does fail
before creating anything, but the error it returns reads "cannot tamper with root",
not "cannot modify root" as the claim states. -/
theorem mkdirAll_root_message_counterexample :
    gBase.mkdirAll envMiss [] "/" =
      ([Event.findByPath "/"], none, some (GErr.other "cannot tamper with root"))
    ∧ GErr.other "cannot tamper with root" ≠ GErr.other "cannot modify root" := by
  constructor
  · decide
  · decide

/-- C9 (amended): `mkdirAll` on a path that, after trimming trailing separators, has
no parent component or no leaf component, and that the initial remote lookup does
not find, performs no creation and fails with the "cannot tamper with root" error. -/
theorem mkdirAll_root_error (g : Commands) (env : Env) (tr : List Event) (d : String)
    (h1 : ¬((env.findByPath (tr ++ [Event.findByPath d]) d).2 = none ∧
      (env.findByPath (tr ++ [Event.findByPath d]) d).1 ≠ none))
    (h2 : (goFilepathSplit (trimRightSlashes d)).1 = "" ∨
      (goFilepathSplit (trimRightSlashes d)).2 = "") :
    g.mkdirAll env tr d =
      (tr ++ [Event.findByPath d], none, some (GErr.other "cannot tamper with root"))
    ∧ ∀ ev ∈ (g.mkdirAll env tr d).1, ev ∉ tr → ev.isRemoteMutation = false := by
  have heq : g.mkdirAll env tr d =
      (tr ++ [Event.findByPath d], none, some (GErr.other "cannot tamper with root")) := by
    simp only [Commands.mkdirAll, mkdirAllF]
    rw [if_neg h1, if_pos h2]
  refine ⟨heq, ?_⟩
  rw [heq]
  intro ev hmem hnot
  rcases List.mem_append.mp hmem with hin | hone
  · exact absurd hin hnot
  · rcases List.mem_singleton.mp hone with rfl
    rfl

/-- C9 witness: the amended root-error behaviour at the concrete path `/`. -/
theorem mkdirAll_root_error_witness :
    gBase.mkdirAll envMiss [] "/" =
      ([] ++ [Event.findByPath "/"], none, some (GErr.other "cannot tamper with root")) :=
  (mkdirAll_root_error gBase envMiss [] "/" (by decide) (by decide)).1

/-- C8: `remoteDelete` trashes the remote object by the destination's identifier;
the local index entry is removed only when the trash call succeeds (on a trash error
no removal is attempted and the entry is untouched), and a failure to remove the
index entry is logged and never returned as an error. -/
theorem remoteDelete_index_bookkeeping (g : Commands) (env : Env) (tr : List Event)
    (change : Change) (d : File) (hd : change.Dest = some d) :
    (∀ e, env.trash (tr ++ [Event.trash d.Id]) d.Id = some e →
      g.remoteDelete env tr change = (tr ++ [Event.trash d.Id, Event.taskDone], some e)
      ∧ ∀ p, Event.removeFile p ∈ (g.remoteDelete env tr change).1 → Event.removeFile p ∈ tr)
    ∧ (env.trash (tr ++ [Event.trash d.Id]) d.Id = none →
      (∀ rmErr, env.removeFile ((tr ++ [Event.trash d.Id]) ++
          [Event.removeFile (g.indexAbsPath d.Id)]) (g.indexAbsPath d.Id) = some rmErr →
        g.remoteDelete env tr change = (tr ++ [Event.trash d.Id,
          Event.removeFile (g.indexAbsPath d.Id),
          Event.logRmIndexErr change.Path d.Id rmErr, Event.taskDone], none))
      ∧ (env.removeFile ((tr ++ [Event.trash d.Id]) ++
          [Event.removeFile (g.indexAbsPath d.Id)]) (g.indexAbsPath d.Id) = none →
        g.remoteDelete env tr change = (tr ++ [Event.trash d.Id,
          Event.removeFile (g.indexAbsPath d.Id), Event.taskDone], none))) := by
  refine ⟨?_, ?_⟩
  · intro e he
    have heq : g.remoteDelete env tr change =
        (tr ++ [Event.trash d.Id, Event.taskDone], some e) := by
      simp [Commands.remoteDelete, remoteDeleteCore, hd, he]
    refine ⟨heq, ?_⟩
    rw [heq]
    intro p hp
    rcases List.mem_append.mp hp with hin | htwo
    · exact hin
    · rcases List.mem_cons.mp htwo with h1 | h1
      · exact absurd h1 (by simp)
      · rcases List.mem_singleton.mp h1 with h2
        exact absurd h2 (by simp)
  · intro ht
    refine ⟨?_, ?_⟩
    · intro rmErr hrm
      simp only [List.append_assoc, List.singleton_append] at hrm
      simp [Commands.remoteDelete, remoteDeleteCore, hd, ht, hrm]
    · intro hrm
      simp only [List.append_assoc, List.singleton_append] at hrm
      simp [Commands.remoteDelete, remoteDeleteCore, hd, ht, hrm]

/-- C8 witness: trash succeeds, the index-file removal fails — the failure is logged
and `remoteDelete` still returns `nil`. -/
theorem remoteDelete_index_bookkeeping_witness :
    gBase.remoteDelete envRmFail [] delChange = ([] ++ [Event.trash "idX",
      Event.removeFile (gBase.indexAbsPath "idX"),
      Event.logRmIndexErr "/x.txt" "idX" (GErr.other "denied"), Event.taskDone], none) :=
  ((remoteDelete_index_bookkeeping gBase envRmFail [] delChange remF (by decide)).2
    (by decide)).1 (GErr.other "denied") (by decide)

/-- C5: for every change applied as a modify whose destination is non-nil (resolved
conflicts included), every upsert request `remoteMod` issues carries the source file
with its identifier set to the destination's identifier and the destination itself,
so the remote object is updated in place rather than duplicated. -/
theorem remoteMod_reuses_dest_id (g : Commands) (env : Env) (tr : List Event) (change : Change)
    (d s : File) (hd : change.Dest = some d) (hs : change.Src = some s) :
    ∀ o, Event.upsertByComparison o ∈ (g.remoteMod env tr change).1 →
      Event.upsertByComparison o ∉ tr →
      o.src = some { s with Id := d.Id } ∧ o.dest = some d := by
  intro o hmem hnot
  have hargs : ∀ parent, (remoteModArgs g change parent).src = some { s with Id := d.Id }
      ∧ (remoteModArgs g change parent).dest = some d := by
    intro parent
    simp [remoteModArgs, hd, hs]
  rcases hfind : env.findByPath (tr ++ [Event.findByPath (parentPath change.Path)])
      (parentPath change.Path) with ⟨rf, re⟩
  rcases re with _ | e
  · rcases rf with _ | parent
    · have htr : (g.remoteMod env tr change).1 =
          tr ++ [Event.findByPath (parentPath change.Path), Event.taskDone] := by
        simp [Commands.remoteMod, remoteModCore, hfind]
      rw [htr] at hmem
      simp at hmem
      exact absurd hmem hnot
    · rcases hup : env.upsertByComparison
          (tr ++ [Event.findByPath (parentPath change.Path),
            Event.upsertByComparison (remoteModArgs g change parent)])
          (remoteModArgs g change parent) with ⟨uf, ue⟩
      rcases ue with _ | e
      · rcases uf with _ | rem
        · have htr : (g.remoteMod env tr change).1 =
              tr ++ [Event.findByPath (parentPath change.Path),
                Event.upsertByComparison (remoteModArgs g change parent), Event.taskDone] := by
            simp [Commands.remoteMod, remoteModCore, hfind, hup]
          rw [htr] at hmem
          simp at hmem
          rcases hmem with hin | hin
          · exact absurd hin hnot
          · rcases hin with rfl
            exact hargs parent
        · rcases hser : env.serializeIndex
              (tr ++ [Event.findByPath (parentPath change.Path),
                Event.upsertByComparison (remoteModArgs g change parent),
                Event.serializeIndex (File.toIndex rem)]) (File.toIndex rem) with _ | w
          · have htr : (g.remoteMod env tr change).1 =
                tr ++ [Event.findByPath (parentPath change.Path),
                  Event.upsertByComparison (remoteModArgs g change parent),
                  Event.serializeIndex (File.toIndex rem), Event.taskDone] := by
              simp [Commands.remoteMod, remoteModCore, hfind, hup, hser]
            rw [htr] at hmem
            simp at hmem
            rcases hmem with hin | hin
            · exact absurd hin hnot
            · rcases hin with rfl
              exact hargs parent
          · have htr : (g.remoteMod env tr change).1 =
                tr ++ [Event.findByPath (parentPath change.Path),
                  Event.upsertByComparison (remoteModArgs g change parent),
                  Event.serializeIndex (File.toIndex rem),
                  Event.logIndexErr rem.Name w, Event.taskDone] := by
              simp [Commands.remoteMod, remoteModCore, hfind, hup, hser]
            rw [htr] at hmem
            simp at hmem
            rcases hmem with hin | hin
            · exact absurd hin hnot
            · rcases hin with rfl
              exact hargs parent
      · have htr : (g.remoteMod env tr change).1 =
            tr ++ [Event.findByPath (parentPath change.Path),
              Event.upsertByComparison (remoteModArgs g change parent),
              Event.logUpsertErr change.Path e, Event.taskDone] := by
          simp [Commands.remoteMod, remoteModCore, hfind, hup]
        rw [htr] at hmem
        simp at hmem
        rcases hmem with hin | hin
        · exact absurd hin hnot
        · rcases hin with rfl
          exact hargs parent
  · have htr : (g.remoteMod env tr change).1 =
        tr ++ [Event.findByPath (parentPath change.Path), Event.taskDone] := by
      simp [Commands.remoteMod, remoteModCore, hfind]
    rw [htr] at hmem
    simp at hmem
    exact absurd hmem hnot

/-- C5 witness: a concrete modify with a non-nil destination — the single upsert
request carries `Src.Id = Dest.Id` and the destination. -/
theorem remoteMod_reuses_dest_id_witness :
    (remoteModArgs gBase modChange rootF).src = some { srcF with Id := remF.Id }
    ∧ (remoteModArgs gBase modChange rootF).dest = some remF :=
  remoteMod_reuses_dest_id gBase envBase [] modChange remF srcF (by decide) (by decide)
    (remoteModArgs gBase modChange rootF) (by decide) (by decide)

/-- C2: for every batch group handed to the upsert scheduler, every directory-ensure
(`mkdirAll`) call derived from the group's paths completes before any per-file upsert
of that group is dispatched: if the directory phase fails, the scheduler returns that
error with the directory-phase trace only, independently of the per-file function —
no per-file upsert is applied; if it succeeds, the whole directory-phase trace
positionally precedes every event of the file-dispatch phase. -/
theorem scheduleUpserts_dirs_before_files (g : Commands) (env : Env) (tr : List Event)
    (cl : List Change)
    (f f' : Commands → Env → List Event → Change → List Event × Option GErr)
    (hf : ∀ (tr1 : List Event) (c : Change), tr1 <+: (f g env tr1 c).1) :
    (∀ e, (runMkdirs g env tr (upsertDirs (cl.map Change.Path))).2 = some e →
      g.scheduleUpserts env tr cl f =
        ((runMkdirs g env tr (upsertDirs (cl.map Change.Path))).1, some e)
      ∧ g.scheduleUpserts env tr cl f = g.scheduleUpserts env tr cl f')
    ∧ ((runMkdirs g env tr (upsertDirs (cl.map Change.Path))).2 = none →
      ∃ trD trF, (runMkdirs g env tr (upsertDirs (cl.map Change.Path))).1 = tr ++ trD
        ∧ g.scheduleUpserts env tr cl f = ((tr ++ trD) ++ trF, none)
        ∧ runFiles g env f (tr ++ trD) cl = (tr ++ trD) ++ trF) := by
  rcases hR : runMkdirs g env tr (upsertDirs (cl.map Change.Path)) with ⟨T, R⟩
  refine ⟨?_, ?_⟩
  · intro e he
    simp only [hR] at he
    subst he
    constructor
    · simp [Commands.scheduleUpserts, hR]
    · simp [Commands.scheduleUpserts, hR]
  · intro hnone
    simp only [hR] at hnone
    subst hnone
    have hpre : tr <+: T := by
      have h1 := runMkdirs_ext g env (upsertDirs (cl.map Change.Path)) tr
      rw [hR] at h1
      exact h1
    rcases hpre with ⟨trD, htrD⟩
    have hfiles : T <+: runFiles g env f T cl := runFiles_ext g env f hf cl T
    rcases hfiles with ⟨trF, htrF⟩
    refine ⟨trD, trF, by simp [hR, htrD.symm], ?_, ?_⟩
    · simp only [Commands.scheduleUpserts, hR]
      rw [htrD, htrF]
    · rw [htrD, htrF]

/-- C2 witness: with an environment where directory creation fails, the adds
scheduler aborts after the directory phase with that error, and its outcome does not
depend on the per-file function (here `remoteAdd` versus `remoteMod`). -/
theorem scheduleUpserts_dirs_before_files_witness :
    gBase.scheduleUpserts envDirFail [] [cA, cB] Commands.remoteAdd =
      ((runMkdirs gBase envDirFail [] (upsertDirs ([cA, cB].map Change.Path))).1,
        some (GErr.other "boom"))
    ∧ gBase.scheduleUpserts envDirFail [] [cA, cB] Commands.remoteAdd =
      gBase.scheduleUpserts envDirFail [] [cA, cB] Commands.remoteMod :=
  (scheduleUpserts_dirs_before_files gBase envDirFail [] [cA, cB] Commands.remoteAdd
    Commands.remoteMod (remoteAdd_ext gBase envDirFail)).1 (GErr.other "boom") (by decide)

/-- C7 counterexample: a parent-lookup failure during `remoteMod` is not logged —
the trace holds only the lookup and the completion mark, and no `logUpsertErr` event
for any path ever appears, contradicting the claim that such a failure is "logged
with the affected path". -/
theorem remoteMod_parent_lookup_error_not_logged :
    (envFindErr.findByPath [Event.findByPath (parentPath addChange.Path)]
      (parentPath addChange.Path)).2 = some (GErr.other "boom")
    ∧ (gBase.remoteMod envFindErr [] addChange).1 = [Event.findByPath "/", Event.taskDone]
    ∧ Event.logUpsertErr addChange.Path (GErr.other "boom") ∉
        (gBase.remoteMod envFindErr [] addChange).1 := by
  refine ⟨by decide, by decide, by decide⟩

/-- C7 (amended): a failing upsert-by-comparison call is logged with the affected
path (and its error, though returned, is ignored by the scheduler); a parent-lookup
failure is not logged; in both cases the batch is not aborted — the per-file loop
dispatches (and marks complete) every change of the group regardless of individual
failures. -/
theorem upsert_failure_logged_batch_continues (g : Commands) (env : Env) :
    (∀ (tr : List Event) (change : Change) (parent : File) (r : Option File) (e : GErr),
      env.findByPath (tr ++ [Event.findByPath (parentPath change.Path)])
        (parentPath change.Path) = (some parent, none) →
      env.upsertByComparison ((tr ++ [Event.findByPath (parentPath change.Path)]) ++
        [Event.upsertByComparison (remoteModArgs g change parent)])
        (remoteModArgs g change parent) = (r, some e) →
      g.remoteMod env tr change = (tr ++ [Event.findByPath (parentPath change.Path),
        Event.upsertByComparison (remoteModArgs g change parent),
        Event.logUpsertErr change.Path e, Event.taskDone], some e))
    ∧ (∀ (tr : List Event) (cl : List Change),
      (runFiles g env Commands.remoteMod tr cl).count Event.taskDone =
        tr.count Event.taskDone + cl.length) := by
  refine ⟨?_, fun tr cl => runFiles_remoteMod_count g env cl tr⟩
  intro tr change parent r e hfind hup
  simp only [List.append_assoc, List.singleton_append] at hup
  simp [Commands.remoteMod, remoteModCore, hfind, hup]

/-- C7 witness: a concrete failing upsert is logged with the path and every change
of a two-element batch is still dispatched. -/
theorem upsert_failure_logged_batch_continues_witness :
    gBase.remoteMod envUpFail [] addChange = ([] ++ [Event.findByPath (parentPath addChange.Path),
      Event.upsertByComparison (remoteModArgs gBase addChange rootF),
      Event.logUpsertErr addChange.Path (GErr.other "boom"), Event.taskDone],
      some (GErr.other "boom"))
    ∧ (runFiles gBase envUpFail Commands.remoteMod [] [addChange, modChange]).count
        Event.taskDone = ([] : List Event).count Event.taskDone + 2 :=
  ⟨(upsert_failure_logged_batch_continues gBase envUpFail).1 [] addChange rootF none
      (GErr.other "boom") (by decide) (by decide),
    (upsert_failure_logged_batch_continues gBase envUpFail).2 [] [addChange, modChange]⟩

/-- C3: if unresolved conflicts remain and the user's confirmation is declined
(`conflictsPersist`), `Push` returns `nil` with nothing applied: its whole trace
contains no upsert, trash or any other remote mutation. -/
theorem push_conflictsPersist_aborts (g : Commands) (env : Env) (tr0 : List Event)
    (cl : List Change)
    (h1 : g.pushCollect env = (tr0, Except.ok cl))
    (h2 : 1 ≤ (pushUnresolved g cl).length)
    (h3 : env.conflictsPersist (pushUnresolved g cl) = true) :
    g.Push env = (tr0 ++ [Event.clearMountPoints], none)
    ∧ ∀ ev ∈ (g.Push env).1, ev.isRemoteMutation = false := by
  simp only [pushUnresolved] at h2 h3
  have hbody : g.pushBody env = (tr0, none) := by
    simp only [Commands.pushBody, h1]
    simp only [pushResolveAndApply]
    rw [if_pos h2, if_pos h3]
  have hpush : g.Push env = (tr0 ++ [Event.clearMountPoints], none) := by
    simp [Commands.Push, hbody]
  refine ⟨hpush, ?_⟩
  rw [hpush]
  intro ev hmem
  rcases List.mem_append.mp hmem with hin | hone
  · have hc := pushCollect_no_mutation g env ev
    rw [h1] at hc
    exact hc hin
  · rcases List.mem_singleton.mp hone with rfl
    rfl

/-- C3 witness: a conflict that cannot be auto-resolved (no cached index) with the
confirmation declined — `Push` returns after resolution with only the announcement
and cleanup in its trace. -/
theorem push_conflictsPersist_aborts_witness :
    gSrc.Push envC3 = ([Event.printResolving] ++ [Event.clearMountPoints], none) :=
  (push_conflictsPersist_aborts gSrc envC3 [Event.printResolving] [confChange]
    rfl (by decide) (by decide)).1

/-- C4: when the quota classification is `Exceeded` the push proceeds only after
explicit confirmation and otherwise returns with zero remote mutations performed;
`AlmostExceeded` is informational only — its message is printed and the push proceeds
without any extra confirmation. -/
theorem push_quota_gate (g : Commands) (env : Env) (tr0 : List Event) (cl : List Change)
    (h1 : g.pushCollect env = (tr0, Except.ok cl))
    (h2 : ¬(1 ≤ (pushUnresolved g cl).length ∧
      env.conflictsPersist (pushUnresolved g cl) = true))
    (h3 : env.printChangeList (pushMergedList g cl) g.opts.NoPrompt g.opts.NoClobber = true) :
    (env.quotaStatus (tr0 ++ [Event.quotaQuery (reduceToSize cl true)])
        (reduceToSize cl true) = (QuotaStatus.Exceeded, none) →
      (env.promptForChanges = false →
        g.Push env = (tr0 ++ [Event.quotaQuery (reduceToSize cl true), Event.printExceeded,
          Event.printProjectedSize (reduceToSize cl true), Event.clearMountPoints], none)
        ∧ ∀ ev ∈ (g.Push env).1, ev.isRemoteMutation = false)
      ∧ (env.promptForChanges = true →
        g.Push env = ((g.playPushChangeList env
          (tr0 ++ [Event.quotaQuery (reduceToSize cl true), Event.printExceeded,
            Event.printProjectedSize (reduceToSize cl true)]) (pushMergedList g cl)).1 ++
          [Event.clearMountPoints], none)))
    ∧ (env.quotaStatus (tr0 ++ [Event.quotaQuery (reduceToSize cl true)])
        (reduceToSize cl true) = (QuotaStatus.AlmostExceeded, none) →
      g.Push env = ((g.playPushChangeList env
        (tr0 ++ [Event.quotaQuery (reduceToSize cl true), Event.printAlmostExceeded])
        (pushMergedList g cl)).1 ++ [Event.clearMountPoints], none)) := by
  have hbody : g.pushBody env = pushAfterConflicts g env tr0 cl (pushMergedList g cl) := by
    simp only [Commands.pushBody, h1]
    exact pushResolve_not_declined g env tr0 cl h2
  have hpac : ∀ res, pushAfterConflicts g env tr0 cl (pushMergedList g cl) = res →
      g.Push env = (res.1 ++ [Event.clearMountPoints], res.2) := by
    intro res hres
    simp [Commands.Push, hbody, hres]
  have hopen : pushAfterConflicts g env tr0 cl (pushMergedList g cl) =
      pushAfterQuota g env (pushMergedList g cl) (tr0 ++ [Event.quotaQuery (reduceToSize cl true)])
        (reduceToSize cl true)
        (env.quotaStatus (tr0 ++ [Event.quotaQuery (reduceToSize cl true)]) (reduceToSize cl true)) := by
    simp only [pushAfterConflicts, h3, if_true]
  refine ⟨?_, ?_⟩
  · intro hq
    refine ⟨?_, ?_⟩
    · intro hp
      have heq : pushAfterConflicts g env tr0 cl (pushMergedList g cl) =
          (tr0 ++ [Event.quotaQuery (reduceToSize cl true), Event.printExceeded,
            Event.printProjectedSize (reduceToSize cl true)], none) := by
        rw [hopen, hq, pushAfterQuota_exceeded_declined g env (pushMergedList g cl) _ _ hp]
        simp
      have hpush := hpac _ heq
      have hpush2 : g.Push env = (tr0 ++ [Event.quotaQuery (reduceToSize cl true),
          Event.printExceeded, Event.printProjectedSize (reduceToSize cl true),
          Event.clearMountPoints], none) := by
        rw [hpush]
        simp
      refine ⟨hpush2, ?_⟩
      rw [hpush2]
      intro ev hmem
      rcases List.mem_append.mp hmem with hin | hfour
      · have hc := pushCollect_no_mutation g env ev
        rw [h1] at hc
        exact hc hin
      · rcases List.mem_cons.mp hfour with rfl | hrest
        · rfl
        · rcases List.mem_cons.mp hrest with rfl | hrest2
          · rfl
          · rcases List.mem_cons.mp hrest2 with rfl | hrest3
            · rfl
            · rcases List.mem_singleton.mp hrest3 with rfl
              rfl
    · intro hp
      have harg : (tr0 ++ [Event.quotaQuery (reduceToSize cl true)]) ++
          [Event.printExceeded, Event.printProjectedSize (reduceToSize cl true)] =
          tr0 ++ [Event.quotaQuery (reduceToSize cl true), Event.printExceeded,
            Event.printProjectedSize (reduceToSize cl true)] := by
        simp
      have heq : pushAfterConflicts g env tr0 cl (pushMergedList g cl) =
          g.playPushChangeList env (tr0 ++ [Event.quotaQuery (reduceToSize cl true),
            Event.printExceeded, Event.printProjectedSize (reduceToSize cl true)])
            (pushMergedList g cl) := by
        rw [hopen, hq, pushAfterQuota_exceeded_confirmed g env (pushMergedList g cl) _ _ hp,
          harg]
      have hpush := hpac _ heq
      rw [hpush, playPushChangeList_result]
  · intro hq
    have harg : (tr0 ++ [Event.quotaQuery (reduceToSize cl true)]) ++
        [Event.printAlmostExceeded] =
        tr0 ++ [Event.quotaQuery (reduceToSize cl true), Event.printAlmostExceeded] := by
      simp
    have heq : pushAfterConflicts g env tr0 cl (pushMergedList g cl) =
        g.playPushChangeList env (tr0 ++ [Event.quotaQuery (reduceToSize cl true),
          Event.printAlmostExceeded]) (pushMergedList g cl) := by
      rw [hopen, hq, pushAfterQuota_almost g env (pushMergedList g cl), harg]
    have hpush := hpac _ heq
    rw [hpush, playPushChangeList_result]

/-- C4 witness: a push whose quota classification is `Exceeded` with confirmation
declined returns `nil` having performed no remote mutation. -/
theorem push_quota_gate_witness :
    gSrc.Push envC4 = ([Event.printResolving] ++ [Event.quotaQuery (reduceToSize [addChange] true),
      Event.printExceeded, Event.printProjectedSize (reduceToSize [addChange] true),
      Event.clearMountPoints], none) :=
  (((push_quota_gate gSrc envC4 [Event.printResolving] [addChange]
    rfl (by decide) rfl).1 (by decide)).1 rfl).1

/-- C1: the projected size handed to the quota classification is exactly the
aggregate byte size of the merged list of changes to be pushed (the non-conflicting
ones plus the resolved and force-included conflicts) — equal, by the resolution
bookkeeping, to the aggregate size of the originally accumulated list the code sums
over. -/
theorem push_quota_projected_size (g : Commands) (env : Env) (tr0 : List Event)
    (cl : List Change)
    (h1 : g.pushCollect env = (tr0, Except.ok cl))
    (h2 : ¬(1 ≤ (pushUnresolved g cl).length ∧
      env.conflictsPersist (pushUnresolved g cl) = true))
    (h3 : env.printChangeList (pushMergedList g cl) g.opts.NoPrompt g.opts.NoClobber = true) :
    ∃ rest, (g.Push env).1 =
      tr0 ++ Event.quotaQuery (reduceToSize (pushMergedList g cl) true) :: rest := by
  have hbody : g.pushBody env = pushAfterConflicts g env tr0 cl (pushMergedList g cl) := by
    simp only [Commands.pushBody, h1]
    exact pushResolve_not_declined g env tr0 cl h2
  rcases pushAfterConflicts_quota_trace g env tr0 cl (pushMergedList g cl) h3 with ⟨r, hr⟩
  refine ⟨r ++ [Event.clearMountPoints], ?_⟩
  have hpush : (g.Push env).1 =
      (pushAfterConflicts g env tr0 cl (pushMergedList g cl)).1 ++ [Event.clearMountPoints] := by
    simp [Commands.Push, hbody]
  rw [hpush, hr, merged_sum]
  simp

/-- C1 witness: the concrete single-add push queries the quota with the aggregate
size of the merged to-be-pushed list (here 5 bytes). -/
theorem push_quota_projected_size_witness :
    reduceToSize (pushMergedList gSrc [addChange]) true = 5
    ∧ ∃ rest, (gSrc.Push envBase).1 = [Event.printResolving] ++
      Event.quotaQuery (reduceToSize (pushMergedList gSrc [addChange]) true) :: rest :=
  ⟨by decide, push_quota_projected_size gSrc envBase [Event.printResolving] [addChange]
    rfl (by decide) rfl⟩

/-- C10: a failed change-resolution for an attached mount point is silently
discarded — the mount loop continues with that mount's changes omitted, the
accumulation phase surfaces no error whenever the source loop succeeded — whereas a
change-resolution failure for a requested source path aborts the entire push with
that error (and no remote mutation). -/
theorem push_mount_skip_source_abort (g : Commands) (env : Env) :
    (∀ (tr : List Event) (mt : MountPoint) (mts : List MountPoint) (acc ccl : List Change)
        (e : GErr) (tr1 : List Event),
      lonePush g env tr (g.absPathOf "") mt.Name mt.MountPath = (tr1, ccl, some e) →
      collectMounts g env tr (mt :: mts) acc = collectMounts g env tr1 mts acc)
    ∧ (∀ cl0, (collectSources g env [Event.printResolving] g.opts.Sources []).2 =
        Except.ok cl0 → ∃ tr2 cl2, g.pushCollect env = (tr2, Except.ok cl2))
    ∧ (∀ (s : String) (rest : List String) (ccl : List Change) (e : GErr),
      g.opts.Sources = s :: rest →
      env.changeListResolve [Event.printResolving] s (g.absPathOf s) true = (ccl, some e) →
      g.Push env = ([Event.printResolving, Event.clearMountPoints], some e)
      ∧ ∀ ev ∈ (g.Push env).1, ev.isRemoteMutation = false) := by
  refine ⟨?_, ?_, ?_⟩
  · intro tr mt mts acc ccl e tr1 hlp
    simp only [collectMounts, hlp]
    simp
  · intro cl0 hok
    simp only [Commands.pushCollect]
    rcases hcs : collectSources g env [Event.printResolving] g.opts.Sources [] with ⟨t, r⟩
    rw [hcs] at hok
    simp only at hok
    subst hok
    exact ⟨_, _, rfl⟩
  · intro s rest ccl e hsrc hres
    have hcs : collectSources g env [Event.printResolving] g.opts.Sources [] =
        ([Event.printResolving], Except.error e) := by
      rw [hsrc]
      simp only [collectSources, hres]
    have hcollect : g.pushCollect env = ([Event.printResolving], Except.error e) := by
      simp only [Commands.pushCollect, hcs]
    have hpush : g.Push env = ([Event.printResolving, Event.clearMountPoints], some e) := by
      simp [Commands.Push, Commands.pushBody, hcollect]
    refine ⟨hpush, ?_⟩
    rw [hpush]
    intro ev hmem
    rcases List.mem_cons.mp hmem with rfl | hrest
    · rfl
    · rcases List.mem_singleton.mp hrest with rfl
      rfl

/-- C10 witness: a failing mount-point resolution is skipped (the loop proceeds to
the remaining mounts with the accumulator unchanged), while a failing source
resolution aborts the push with that error. -/
theorem push_mount_skip_source_abort_witness :
    collectMounts gBase envMountFail [] [mtP] [] =
      collectMounts gBase envMountFail [Event.findByPath "m"] [] []
    ∧ gSrc.Push envSrcFail = ([Event.printResolving, Event.clearMountPoints],
        some (GErr.other "sfail")) :=
  ⟨(push_mount_skip_source_abort gBase envMountFail).1 [] mtP [] [] []
      (GErr.other "mfail") [Event.findByPath "m"] (by decide),
    ((push_mount_skip_source_abort gSrc envSrcFail).2.2 "s" [] [] (GErr.other "sfail")
      rfl (by decide)).1⟩

end Drive
